import Mathlib

/-!
Verification of the `eta.core.data` module (file `src/eta/core/data.py`).

The development shallowly embeds the two components the claims are about:

* `DataFileSequence` — a bounds-checked printf-style indexed path generator
  (`gen_path`, `check_bounds`, the bound setters and the iterator protocol).
* `DataRecords` / `BaseDataRecord` — the record container with its
  field-indexed query and cull machinery, and the record field contract
  (`required` / `optional`, the `no_default` sentinel, `from_dict`).

Python integers are embedded as `Int` (sequence indices) and `Nat`
(list positions).  Exceptions are embedded as `Except` values.  Mutation of
an object is embedded as explicit state passing: an operation that mutates
`self` returns the new state.  Dictionaries are embedded as association
lists with unique keys, which matches Python dict semantics for the
programs at hand (insertion order preserved, one binding per key).
-/

deriving instance DecidableEq for Except

namespace EtaData

/-- Association-list lookup keyed by decidable equality.  It embeds Python
dictionary read access `d[k]` / `d.get(k)`: the value of the first binding
of the key, if any. -/
def lookupKV {κ : Type} {γ : Type} [DecidableEq κ] (k : κ) : List (κ × γ) → Option γ
  | [] => none
  | (a, v) :: rest => if k = a then some v else lookupKV k rest

/-! ## DataFileSequence (src/eta/core/data.py, lines 102-251) -/

/-- State of a `DataFileSequence` object: the printf-style pattern, the
mutability flag and the two inclusive bounds.  The `_iter_index` cursor is
kept out of the state and threaded explicitly through `iterSteps`. -/
structure DataFileSequence where
  sequence : String
  immutable_bounds : Bool
  lower_bound : Int
  upper_bound : Int
deriving DecidableEq, Repr

/-- The distinct `DataFileSequenceError` situations raised by the source
(the Python class is one exception type with distinguishing messages). -/
inductive DfsError where
  | noMatchingFiles
  | outOfBounds
  | negativeIndex
  | nonAdjacentExtension
  | immutableBounds
deriving DecidableEq, Repr

/-- The value of the Python expression `self.sequence % index`: the pattern
instantiated at the given index.  The formatting itself is opaque, so a
generated path is embedded as the pair of pattern and index. -/
structure GenPath where
  pattern : String
  index : Int
deriving DecidableEq, Repr

/-- `DataFileSequence.check_bounds` (lines 194-205): pure bounds test. -/
def DataFileSequence.check_bounds (s : DataFileSequence) (index : Int) : Bool :=
  if index < s.lower_bound || index > s.upper_bound then false else true

/-- `DataFileSequence.gen_path` (lines 207-236).  Returns the state of the
object after the call together with either the generated path or the raised
error; the source raises before any mutation, so on error the state is the
input state. -/
def DataFileSequence.gen_path (s : DataFileSequence) (index : Int) :
    DataFileSequence × Except DfsError GenPath :=
  if s.immutable_bounds then
    if s.check_bounds index = false then (s, .error .outOfBounds)
    else (s, .ok ⟨s.sequence, index⟩)
  else if index < 0 then (s, .error .negativeIndex)
  else if index = s.lower_bound - 1 then
    (⟨s.sequence, s.immutable_bounds, index, s.upper_bound⟩, .ok ⟨s.sequence, index⟩)
  else if index = s.upper_bound + 1 then
    (⟨s.sequence, s.immutable_bounds, s.lower_bound, index⟩, .ok ⟨s.sequence, index⟩)
  else if s.check_bounds index = false then (s, .error .nonAdjacentExtension)
  else (s, .ok ⟨s.sequence, index⟩)

/-- Setter for `lower_bound` (lines 172-177): clamps to at most
`upper_bound`; raises on an immutable sequence. -/
def DataFileSequence.set_lower_bound (s : DataFileSequence) (value : Int) :
    Except DfsError DataFileSequence :=
  if s.immutable_bounds then .error .immutableBounds
  else .ok ⟨s.sequence, s.immutable_bounds, min value s.upper_bound, s.upper_bound⟩

/-- Setter for `upper_bound` (lines 179-184): clamps to at least
`lower_bound`; raises on an immutable sequence. -/
def DataFileSequence.set_upper_bound (s : DataFileSequence) (value : Int) :
    Except DfsError DataFileSequence :=
  if s.immutable_bounds then .error .immutableBounds
  else .ok ⟨s.sequence, s.immutable_bounds, s.lower_bound, max value s.lower_bound⟩

/-- Modelled from the spec: `etau.parse_bounds_from_pattern` lives in
`eta.core.utils`, which is not under `src/`.  Per the spec, the bounds are
inferred by scanning the files on disk that match the pattern: the indices
of the matching files determine the smallest and largest index, and both
bounds are `None` when no file matches. -/
def parse_bounds_from_indices : List Int → Option Int × Option Int
  | [] => (none, none)
  | i :: rest => (some (List.foldl min i rest), some (List.foldl max i rest))

/-- `DataFileSequence.__init__` (lines 122-144), with the directory scan
abstracted into the list of indices of the files matching the pattern:
store the pattern and flag, parse the bounds, and raise when the pattern
matched no file. -/
def DataFileSequence.construct (sequence : String) (immutable_bounds : Bool)
    (file_indices : List Int) : Except DfsError DataFileSequence :=
  match parse_bounds_from_indices file_indices with
  | (some l, some u) => .ok ⟨sequence, immutable_bounds, l, u⟩
  | _ => .error .noMatchingFiles

/-- Outcome of running the iterator protocol to completion: the paths
yielded before `StopIteration`, the final state of the sequence object,
and the error if `__next__` raised a `DataFileSequenceError` instead of
stopping normally. -/
structure IterOutcome where
  paths : List GenPath
  state : DataFileSequence
  error : Option DfsError
deriving DecidableEq, Repr

/-- One pass of `__next__` (lines 153-158) repeated until the cursor
leaves the bounds, with explicit fuel for termination.  Each step
increments the cursor, stops when `check_bounds` fails, and otherwise
yields `gen_path` of the cursor (threading the possibly-updated state). -/
def DataFileSequence.iterSteps : Nat → DataFileSequence → Int → IterOutcome
  | 0, s, _ => ⟨[], s, none⟩
  | Nat.succ fuel, s, i =>
    if s.check_bounds (i + 1) = false then ⟨[], s, none⟩
    else
      match s.gen_path (i + 1) with
      | (s2, .ok p) =>
        let rest := DataFileSequence.iterSteps fuel s2 (i + 1)
        ⟨p :: rest.paths, rest.state, rest.error⟩
      | (s2, .error e) => ⟨[], s2, some e⟩

/-- A full `for` loop over the sequence: `__iter__` (lines 149-151) resets
the cursor to `lower_bound - 1` and `__next__` runs until it stops.  The
fuel bound covers every possible yield plus the stopping step. -/
def DataFileSequence.iterate (s : DataFileSequence) : IterOutcome :=
  DataFileSequence.iterSteps ((s.upper_bound + 1 - s.lower_bound).toNat + 1) s
    (s.lower_bound - 1)

theorem check_bounds_false_iff (s : DataFileSequence) (i : Int) :
    s.check_bounds i = false ↔ (i < s.lower_bound ∨ s.upper_bound < i) := by
  unfold DataFileSequence.check_bounds
  split <;> rename_i h <;> simp only [Bool.or_eq_true, decide_eq_true_eq] at h <;>
    simp <;> omega

theorem check_bounds_true_iff (s : DataFileSequence) (i : Int) :
    s.check_bounds i = true ↔ (s.lower_bound ≤ i ∧ i ≤ s.upper_bound) := by
  unfold DataFileSequence.check_bounds
  split <;> rename_i h <;> simp only [Bool.or_eq_true, decide_eq_true_eq] at h <;>
    simp <;> omega

/-- C4: on a mutable sequence with a valid interval, `gen_path` rejects
negative indices, extends the lower bound at exactly `lower_bound - 1`,
extends the upper bound at exactly `upper_bound + 1`, leaves the bounds
alone on an in-range index, rejects every other index as a non-adjacent
extension, and every successful call returns the pattern instantiated at
the index. -/
theorem c4_gen_path_mutable (s : DataFileSequence) (i : Int)
    (hm : s.immutable_bounds = false) (hlu : s.lower_bound ≤ s.upper_bound) :
    (i < 0 → s.gen_path i = (s, .error .negativeIndex)) ∧
    (0 ≤ i → i = s.lower_bound - 1 →
      s.gen_path i = (⟨s.sequence, false, i, s.upper_bound⟩, .ok ⟨s.sequence, i⟩)) ∧
    (0 ≤ i → i = s.upper_bound + 1 →
      s.gen_path i = (⟨s.sequence, false, s.lower_bound, i⟩, .ok ⟨s.sequence, i⟩)) ∧
    (0 ≤ i → s.lower_bound ≤ i → i ≤ s.upper_bound →
      s.gen_path i = (s, .ok ⟨s.sequence, i⟩)) ∧
    (0 ≤ i → i ≠ s.lower_bound - 1 → i ≠ s.upper_bound + 1 →
      ¬(s.lower_bound ≤ i ∧ i ≤ s.upper_bound) →
      s.gen_path i = (s, .error .nonAdjacentExtension)) := by
  unfold DataFileSequence.gen_path
  rw [hm]
  simp only [Bool.false_eq_true, if_false]
  refine ⟨?_, ?_, ?_, ?_, ?_⟩
  · intro h
    rw [if_pos h]
  · intro h0 hl
    rw [if_neg (by omega), if_pos hl]
  · intro h0 hu
    rw [if_neg (by omega), if_neg (by omega), if_pos hu]
  · intro h0 hl hu
    rw [if_neg (by omega), if_neg (by omega), if_neg (by omega),
      if_neg (by rw [(check_bounds_true_iff s i).mpr ⟨hl, hu⟩]; simp)]
  · intro h0 hl hu hr
    rw [if_neg (by omega), if_neg hl, if_neg hu,
      if_pos ((check_bounds_false_iff s i).mpr (by omega))]

/-- Witness for C4 at the sequence `frame-%d` with mutable bounds `[3, 10]`
and index `11`: the call extends the upper bound to `11` and yields the
instantiated pattern. -/
theorem c4_gen_path_mutable_witness :
    (⟨"frame-%d", false, 3, 10⟩ : DataFileSequence).gen_path 11 =
      (⟨"frame-%d", false, 3, 11⟩, .ok ⟨"frame-%d", 11⟩) := by
  have h := c4_gen_path_mutable ⟨"frame-%d", false, 3, 10⟩ 11 rfl (by decide)
  exact h.2.2.1 (by decide) (by decide)

/-- C5: on an immutable sequence, `gen_path` raises the out-of-bounds
error exactly when the index lies outside `[lower_bound, upper_bound]`,
returns the instantiated pattern on every in-range index, and never
changes the state. -/
theorem c5_gen_path_immutable (s : DataFileSequence) (i : Int)
    (him : s.immutable_bounds = true) :
    ((i < s.lower_bound ∨ s.upper_bound < i) →
      s.gen_path i = (s, .error .outOfBounds)) ∧
    (s.lower_bound ≤ i → i ≤ s.upper_bound →
      s.gen_path i = (s, .ok ⟨s.sequence, i⟩)) ∧
    (s.gen_path i).1 = s := by
  unfold DataFileSequence.gen_path
  rw [him]
  simp only [eq_self_iff_true, if_true]
  refine ⟨?_, ?_, ?_⟩
  · intro h
    rw [if_pos ((check_bounds_false_iff s i).mpr h)]
  · intro hl hu
    rw [if_neg (by rw [(check_bounds_true_iff s i).mpr ⟨hl, hu⟩]; simp)]
  · split <;> rfl

/-- Witness for C5 at the immutable sequence with bounds `[3, 10]`:
index `2` is rejected, index `3` succeeds, and the state is unchanged. -/
theorem c5_gen_path_immutable_witness :
    (⟨"frame-%05d.png", true, 3, 10⟩ : DataFileSequence).gen_path 2 =
      (⟨"frame-%05d.png", true, 3, 10⟩, .error .outOfBounds) ∧
    (⟨"frame-%05d.png", true, 3, 10⟩ : DataFileSequence).gen_path 3 =
      (⟨"frame-%05d.png", true, 3, 10⟩, .ok ⟨"frame-%05d.png", 3⟩) := by
  constructor
  · exact (c5_gen_path_immutable ⟨"frame-%05d.png", true, 3, 10⟩ 2 rfl).1
      (by left; decide)
  · exact (c5_gen_path_immutable ⟨"frame-%05d.png", true, 3, 10⟩ 3 rfl).2.1
      (by decide) (by decide)

theorem foldl_min_le {l : List Int} {a : Int} : List.foldl min a l ≤ a := by
  induction l generalizing a with
  | nil => exact le_refl a
  | cons x xs ih => exact le_trans ih (min_le_left a x)

theorem le_foldl_max {l : List Int} {a : Int} : a ≤ List.foldl max a l := by
  induction l generalizing a with
  | nil => exact le_refl a
  | cons x xs ih => exact le_trans (le_max_left a x) ih

/-- C6: the interval invariant `lower_bound ≤ upper_bound` holds after
construction and is preserved by `gen_path` (whatever branch it takes);
the `lower_bound` setter clamps to at most `upper_bound`, the
`upper_bound` setter clamps to at least `lower_bound` (so neither setter
ever inverts the interval), and both setters raise on an immutable
sequence (returning no new state, so the bounds are unchanged). -/
theorem c6_bounds_invariant :
    (∀ (seq : String) (imm : Bool) (idxs : List Int) (s : DataFileSequence),
      DataFileSequence.construct seq imm idxs = .ok s →
        s.lower_bound ≤ s.upper_bound) ∧
    (∀ (s : DataFileSequence) (i : Int), s.lower_bound ≤ s.upper_bound →
      (s.gen_path i).1.lower_bound ≤ (s.gen_path i).1.upper_bound) ∧
    (∀ (s : DataFileSequence) (v : Int), s.immutable_bounds = false →
      s.set_lower_bound v =
        .ok ⟨s.sequence, false, min v s.upper_bound, s.upper_bound⟩) ∧
    (∀ (s : DataFileSequence) (v : Int) (s2 : DataFileSequence),
      s.set_lower_bound v = .ok s2 →
        s2.lower_bound ≤ s2.upper_bound ∧ s2.upper_bound = s.upper_bound) ∧
    (∀ (s : DataFileSequence) (v : Int), s.immutable_bounds = false →
      s.set_upper_bound v =
        .ok ⟨s.sequence, false, s.lower_bound, max v s.lower_bound⟩) ∧
    (∀ (s : DataFileSequence) (v : Int) (s2 : DataFileSequence),
      s.set_upper_bound v = .ok s2 →
        s2.lower_bound ≤ s2.upper_bound ∧ s2.lower_bound = s.lower_bound) ∧
    (∀ (s : DataFileSequence) (v : Int), s.immutable_bounds = true →
      s.set_lower_bound v = .error .immutableBounds ∧
      s.set_upper_bound v = .error .immutableBounds) := by
  refine ⟨?_, ?_, ?_, ?_, ?_, ?_, ?_⟩
  · intro seq imm idxs s h
    match idxs with
    | [] => exact Except.noConfusion h
    | j :: rest =>
      unfold DataFileSequence.construct parse_bounds_from_indices at h
      simp only [Except.ok.injEq] at h
      rw [← h]
      exact le_trans foldl_min_le le_foldl_max
  · intro s i h
    unfold DataFileSequence.gen_path
    split
    · split <;> exact h
    · split
      · exact h
      · split
        · rename_i hl
          simp only
          omega
        · split
          · rename_i hu
            simp only
            omega
          · split <;> exact h
  · intro s v h
    unfold DataFileSequence.set_lower_bound
    rw [h]
    simp
  · intro s v s2 h
    unfold DataFileSequence.set_lower_bound at h
    split at h
    · exact Except.noConfusion h
    · simp only [Except.ok.injEq] at h
      rw [← h]
      exact ⟨min_le_right v s.upper_bound, rfl⟩
  · intro s v h
    unfold DataFileSequence.set_upper_bound
    rw [h]
    simp
  · intro s v s2 h
    unfold DataFileSequence.set_upper_bound at h
    split at h
    · exact Except.noConfusion h
    · simp only [Except.ok.injEq] at h
      rw [← h]
      exact ⟨le_max_right v s.lower_bound, rfl⟩
  · intro s v h
    constructor
    · unfold DataFileSequence.set_lower_bound
      rw [h]
      simp
    · unfold DataFileSequence.set_upper_bound
      rw [h]
      simp

/-- Witness for C6: construction from files with indices `{5, 3, 9}` gives
the interval `[3, 9]`; the mutable lower-bound setter clamps `20` down to
the upper bound `9`; the immutable setter raises. -/
theorem c6_bounds_invariant_witness :
    DataFileSequence.construct "f-%d" false [5, 3, 9] = .ok ⟨"f-%d", false, 3, 9⟩ ∧
    (⟨"f-%d", false, 3, 9⟩ : DataFileSequence).set_lower_bound 20 =
      .ok ⟨"f-%d", false, 9, 9⟩ ∧
    (⟨"f-%d", true, 3, 9⟩ : DataFileSequence).set_lower_bound 5 =
      .error .immutableBounds := by
  refine ⟨by decide, ?_, ?_⟩
  · rw [c6_bounds_invariant.2.2.1 ⟨"f-%d", false, 3, 9⟩ 20 rfl]
    decide
  · exact (c6_bounds_invariant.2.2.2.2.2.2 ⟨"f-%d", true, 3, 9⟩ 5 rfl).1

theorem gen_path_in_range (s : DataFileSequence) (j : Int)
    (hsafe : 0 ≤ s.lower_bound ∨ s.immutable_bounds = true)
    (hl : s.lower_bound ≤ j) (hu : j ≤ s.upper_bound) :
    s.gen_path j = (s, .ok ⟨s.sequence, j⟩) := by
  cases him : s.immutable_bounds with
  | false =>
    have h0 : 0 ≤ s.lower_bound := by
      rcases hsafe with h | h
      · exact h
      · rw [him] at h
        exact absurd h (by simp)
    exact (c4_gen_path_mutable s j him (le_trans hl hu)).2.2.2.1 (by omega) hl hu
  | true => exact (c5_gen_path_immutable s j him).2.1 hl hu

theorem iterSteps_spec (s : DataFileSequence)
    (hsafe : 0 ≤ s.lower_bound ∨ s.immutable_bounds = true) :
    ∀ (fuel : Nat) (i : Int), s.lower_bound - 1 ≤ i →
      (s.upper_bound - i).toNat < fuel →
      DataFileSequence.iterSteps fuel s i =
        ⟨(List.range (s.upper_bound - i).toNat).map
            (fun (k : Nat) => ⟨s.sequence, i + 1 + (k : Int)⟩), s, none⟩ := by
  intro fuel
  induction fuel with
  | zero => intro i hi hf; exact absurd hf (by omega)
  | succ fuel ih =>
    intro i hi hf
    by_cases hend : s.upper_bound ≤ i
    · have hn : (s.upper_bound - i).toNat = 0 := by omega
      unfold DataFileSequence.iterSteps
      rw [if_pos ((check_bounds_false_iff s (i + 1)).mpr (by omega))]
      rw [hn]
      simp
    · have hcb : s.check_bounds (i + 1) = true :=
        (check_bounds_true_iff s (i + 1)).mpr (by omega)
      unfold DataFileSequence.iterSteps
      rw [if_neg (by rw [hcb]; simp)]
      rw [gen_path_in_range s (i + 1) hsafe (by omega) (by omega)]
      simp only
      rw [ih (i + 1) (by omega) (by omega)]
      simp only [IterOutcome.mk.injEq, and_true]
      have hn : (s.upper_bound - i).toNat = (s.upper_bound - (i + 1)).toNat + 1 := by
        omega
      rw [hn, List.range_succ_eq_map, List.map_cons, List.map_map]
      congr 1
      · simp
      · apply List.map_congr_left
        intro a ha
        simp only [Function.comp_apply]
        congr 1
        push_cast
        ring

/-- C7 (amended): for a sequence whose lower bound is nonnegative or whose
bounds are immutable, iterating yields exactly
`upper_bound - lower_bound + 1` paths (zero if the interval is empty),
namely the pattern instantiated at each index from `lower_bound` to
`upper_bound` in ascending order, without error; the state is unchanged,
and a second iteration from the start yields the identical outcome. -/
theorem c7_iterate (s : DataFileSequence)
    (hsafe : 0 ≤ s.lower_bound ∨ s.immutable_bounds = true) :
    s.iterate.paths =
      (List.range (s.upper_bound + 1 - s.lower_bound).toNat).map
        (fun (k : Nat) => ⟨s.sequence, s.lower_bound + (k : Int)⟩) ∧
    s.iterate.paths.length = (s.upper_bound - s.lower_bound + 1).toNat ∧
    s.iterate.state = s ∧
    s.iterate.error = none ∧
    s.iterate.state.iterate = s.iterate := by
  have h := iterSteps_spec s hsafe ((s.upper_bound + 1 - s.lower_bound).toNat + 1)
    (s.lower_bound - 1) (by omega) (by omega)
  unfold DataFileSequence.iterate
  rw [h]
  have hn : (s.upper_bound - (s.lower_bound - 1)).toNat =
      (s.upper_bound + 1 - s.lower_bound).toNat := by omega
  refine ⟨?_, ?_, rfl, rfl, ?_⟩
  · simp only
    rw [hn]
    apply List.map_congr_left
    intro a ha
    congr 1
    ring
  · simp only [List.length_map, List.length_range]
    omega
  · show s.iterate = _
    unfold DataFileSequence.iterate
    rw [h]

/-- Witness for C7 at the immutable sequence with bounds `[3, 5]`:
iteration yields the three paths in ascending order with no error and
leaves the state unchanged. -/
theorem c7_iterate_witness :
    (⟨"f-%d", true, 3, 5⟩ : DataFileSequence).iterate.paths =
      [⟨"f-%d", 3⟩, ⟨"f-%d", 4⟩, ⟨"f-%d", 5⟩] ∧
    (⟨"f-%d", true, 3, 5⟩ : DataFileSequence).iterate.error = none := by
  have h := c7_iterate ⟨"f-%d", true, 3, 5⟩ (Or.inr rfl)
  refine ⟨?_, h.2.2.2.1⟩
  rw [h.1]
  decide

/-- Counterexample to C7 as stated: a mutable sequence with bounds
`[-1, 0]` is reachable through the `lower_bound` setter, but iterating it
yields zero paths (not `upper_bound - lower_bound + 1 = 2`) because
`__next__` calls `gen_path` on the negative index `-1`, which raises. -/
theorem c7_counterexample :
    DataFileSequence.set_lower_bound ⟨"f-%d", false, 0, 0⟩ (-1) =
      .ok ⟨"f-%d", false, -1, 0⟩ ∧
    (⟨"f-%d", false, -1, 0⟩ : DataFileSequence).iterate.paths = [] ∧
    (⟨"f-%d", false, -1, 0⟩ : DataFileSequence).iterate.error =
      some .negativeIndex := by
  refine ⟨by decide, by decide, by decide⟩

/-! ## DataRecords field-indexed culling (src/eta/core/data.py, lines 312-366)

The container state of a `DataRecords` instance is its ordered list of
records; a record field is embedded as an accessor function `f : α → β`
on the element type.  `build_keyset`, `build_lookup` and `cull` are
translated directly from the source; `keep_inds` comes from the
`Container` base class, which is not under `src/`, and is modelled from
the spec. -/

/-- `DataRecords.build_keyset` (lines 312-319): the set of distinct values
of the field across the records, built by set insertion in record order. -/
def setInsert {β : Type} [DecidableEq β] (s : List β) (x : β) : List β :=
  if x ∈ s then s else s ++ [x]

def build_keyset {α β : Type} [DecidableEq β] (f : α → β) (records : List α) :
    List β :=
  List.foldl (fun s r => setInsert s (f r)) [] records

/-- One `lud[getattr(r, field)].append(i)` step of `build_lookup`: append
the index to the entry of the key, creating the entry if absent (the
`defaultdict` behaviour, with dict insertion order). -/
def addToLookup {β : Type} [DecidableEq β] (lud : List (β × List Nat)) (k : β)
    (i : Nat) : List (β × List Nat) :=
  match lud with
  | [] => [(k, [i])]
  | (k2, l) :: rest =>
    if k = k2 then (k2, l ++ [i]) :: rest else (k2, l) :: addToLookup rest k i

def build_lookup_go {α β : Type} [DecidableEq β] (f : α → β) :
    Nat → List α → List (β × List Nat) → List (β × List Nat)
  | _, [], lud => lud
  | i, r :: rs, lud => build_lookup_go f (i + 1) rs (addToLookup lud (f r) i)

/-- `DataRecords.build_lookup` (lines 321-329): dictionary from each field
value to the list of indices of the records with that value. -/
def build_lookup {α β : Type} [DecidableEq β] (f : α → β) (records : List α) :
    List (β × List Nat) :=
  build_lookup_go f 0 records []

/-- Modelled from the spec: `Container.keep_inds` / `filter_by_indices`
(eta.core.serial, not under src/) keeps exactly the elements whose
positions are in the given index collection, preserving relative order. -/
def keep_inds_go {α : Type} (inds : List Nat) : Nat → List α → List α
  | _, [] => []
  | i, r :: rs =>
    if i ∈ inds then r :: keep_inds_go inds (i + 1) rs
    else keep_inds_go inds (i + 1) rs

def keep_inds {α : Type} (records : List α) (inds : List Nat) : List α :=
  keep_inds_go inds 0 records

/-- The errors `cull` can raise: the explicit `DataRecordsError` when no
criterion is given, and the Python `KeyError` raised by `lud[v]` when a
kept value is not a key of the lookup dictionary. -/
inductive CullError (β : Type) where
  | noCriteria
  | keyError (v : β)
deriving DecidableEq, Repr

/-- Python truthiness of an optional list argument: `None` and the empty
list are falsy. -/
def pyTruthy {β : Type} : Option (List β) → Bool
  | some (_ :: _) => true
  | _ => false

/-- The loop `for v in keep_values: inds += lud[v]` (lines 361-363),
raising `KeyError v` when `v` is not a key of `lud`. -/
def gatherInds {β : Type} [DecidableEq β] (lud : List (β × List Nat)) :
    List β → Except (CullError β) (List Nat)
  | [] => .ok []
  | v :: vs =>
    match lookupKV v lud with
    | none => .error (.keyError v)
    | some l =>
      match gatherInds lud vs with
      | .ok rest => .ok (l ++ rest)
      | .error e => .error e

/-- `DataRecords.cull` (lines 340-366).  Returns the new record list of
the container (the source returns `len(self)` after mutating in place). -/
def cull {α β : Type} [DecidableEq β] (f : α → β) (records : List α)
    (keep_values remove_values : Option (List β)) :
    Except (CullError β) (List α) :=
  let lud := build_lookup f records
  let kv : Option (List β) :=
    bif pyTruthy remove_values then
      some ((lud.map Prod.fst).filter (fun k => decide (k ∉ remove_values.getD [])))
    else keep_values
  bif pyTruthy kv then
    match gatherInds lud (kv.getD []) with
    | .ok inds => .ok (keep_inds records inds)
    | .error e => .error e
  else .error .noCriteria

/-- The container state after a `cull` call: the culled records on
success, the unchanged records when the call raised. -/
def cullResult {α β : Type} (records : List α)
    (r : Except (CullError β) (List α)) : List α :=
  match r with
  | .ok res => res
  | .error _ => records

theorem lookupKV_isSome {κ γ : Type} [DecidableEq κ] (k : κ) (l : List (κ × γ)) :
    (lookupKV k l).isSome = true ↔ k ∈ l.map Prod.fst := by
  induction l with
  | nil => simp [lookupKV]
  | cons kv rest ih =>
    match kv with
    | (a, v) =>
      by_cases h : k = a
      · subst h
        simp [lookupKV]
      · simp [lookupKV, h, ih]

theorem lookupKV_addToLookup {β : Type} [DecidableEq β]
    (lud : List (β × List Nat)) (k : β) (i : Nat) (v : β) :
    lookupKV v (addToLookup lud k i) =
      if v = k then some ((lookupKV k lud).getD [] ++ [i])
      else lookupKV v lud := by
  induction lud with
  | nil =>
    by_cases h : v = k
    · subst h
      simp [addToLookup, lookupKV]
    · simp [addToLookup, lookupKV, h]
  | cons kv rest ih =>
    match kv with
    | (k2, l) =>
      by_cases hk : k = k2
      · subst hk
        by_cases hv : v = k
        · subst hv
          simp [addToLookup, lookupKV]
        · simp [addToLookup, lookupKV, hv]
      · by_cases hv : v = k2
        · subst hv
          rw [if_neg (fun h => hk h.symm)]
          simp [addToLookup, lookupKV, hk]
        · by_cases hvk : v = k
          · subst hvk
            simp [addToLookup, lookupKV, hk, hv, ih]
          · simp [addToLookup, lookupKV, hk, hv, hvk, ih]

theorem mem_keys_addToLookup {β : Type} [DecidableEq β]
    (lud : List (β × List Nat)) (k : β) (i : Nat) (x : β) :
    x ∈ (addToLookup lud k i).map Prod.fst ↔
      (x ∈ lud.map Prod.fst ∨ x = k) := by
  induction lud with
  | nil => simp [addToLookup]
  | cons kv rest ih =>
    match kv with
    | (k2, l) =>
      by_cases hk : k = k2
      · subst hk
        simp [addToLookup]
        tauto
      · simp [addToLookup, hk, ih]
        tauto

theorem mem_build_lookup_go {α β : Type} [DecidableEq β] (f : α → β) (v : β)
    (j : Nat) :
    ∀ (rs : List α) (start : Nat) (lud : List (β × List Nat)),
      j ∈ (lookupKV v (build_lookup_go f start rs lud)).getD [] ↔
        (j ∈ (lookupKV v lud).getD [] ∨
          ∃ m r, rs[m]? = some r ∧ f r = v ∧ j = start + m) := by
  intro rs
  induction rs with
  | nil =>
    intro start lud
    simp [build_lookup_go]
  | cons r rest ih =>
    intro start lud
    simp only [build_lookup_go]
    rw [ih (start + 1) (addToLookup lud (f r) start)]
    constructor
    · rintro (hmem | ⟨m, r2, hm, hf, hj⟩)
      · rw [lookupKV_addToLookup] at hmem
        by_cases hv : v = f r
        · rw [if_pos hv] at hmem
          simp only [Option.getD_some] at hmem
          rw [List.mem_append] at hmem
          rcases hmem with h | h
          · left
            rw [hv]
            exact h
          · right
            refine ⟨0, r, by simp, hv.symm, ?_⟩
            simp only [List.mem_singleton] at h
            omega
        · rw [if_neg hv] at hmem
          left
          exact hmem
      · right
        refine ⟨m + 1, r2, by simpa using hm, hf, by omega⟩
    · rintro (hmem | ⟨m, r2, hm, hf, hj⟩)
      · left
        rw [lookupKV_addToLookup]
        by_cases hv : v = f r
        · rw [if_pos hv]
          simp only [Option.getD_some]
          rw [List.mem_append]
          left
          rw [← hv]
          exact hmem
        · rw [if_neg hv]
          exact hmem
      · match m, hm with
        | 0, hm =>
          left
          rw [lookupKV_addToLookup]
          simp only [List.getElem?_cons_zero, Option.some.injEq] at hm
          rw [if_pos (by rw [← hm] at hf; exact hf.symm)]
          simp only [Option.getD_some]
          rw [List.mem_append]
          right
          simp only [List.mem_singleton]
          omega
        | Nat.succ m2, hm =>
          right
          refine ⟨m2, r2, by simpa using hm, hf, by omega⟩

theorem mem_build_lookup {α β : Type} [DecidableEq β] (f : α → β)
    (records : List α) (v : β) (j : Nat) :
    j ∈ (lookupKV v (build_lookup f records)).getD [] ↔
      ∃ r, records[j]? = some r ∧ f r = v := by
  unfold build_lookup
  rw [mem_build_lookup_go]
  simp only [lookupKV, Option.getD_none, List.not_mem_nil, false_or]
  constructor
  · rintro ⟨m, r, hm, hf, hj⟩
    refine ⟨r, ?_, hf⟩
    rw [hj]
    simpa using hm
  · rintro ⟨r, hj, hf⟩
    exact ⟨j, r, hj, hf, by omega⟩

theorem mem_keys_build_lookup_go {α β : Type} [DecidableEq β] (f : α → β)
    (x : β) :
    ∀ (rs : List α) (start : Nat) (lud : List (β × List Nat)),
      x ∈ (build_lookup_go f start rs lud).map Prod.fst ↔
        (x ∈ lud.map Prod.fst ∨ x ∈ rs.map f) := by
  intro rs
  induction rs with
  | nil =>
    intro start lud
    simp [build_lookup_go]
  | cons r rest ih =>
    intro start lud
    simp only [build_lookup_go]
    rw [ih (start + 1) (addToLookup lud (f r) start), mem_keys_addToLookup]
    simp only [List.map_cons, List.mem_cons]
    tauto

theorem mem_keys_build_lookup {α β : Type} [DecidableEq β] (f : α → β)
    (records : List α) (x : β) :
    x ∈ (build_lookup f records).map Prod.fst ↔ x ∈ records.map f := by
  unfold build_lookup
  rw [mem_keys_build_lookup_go]
  simp

theorem mem_setInsert {β : Type} [DecidableEq β] (s : List β) (x y : β) :
    y ∈ setInsert s x ↔ (y ∈ s ∨ y = x) := by
  unfold setInsert
  split
  · rename_i h
    constructor
    · exact Or.inl
    · rintro (h2 | rfl)
      · exact h2
      · exact h
  · simp

theorem mem_build_keyset_go {α β : Type} [DecidableEq β] (f : α → β) (y : β) :
    ∀ (rs : List α) (acc : List β),
      y ∈ List.foldl (fun s r => setInsert s (f r)) acc rs ↔
        (y ∈ acc ∨ y ∈ rs.map f) := by
  intro rs
  induction rs with
  | nil =>
    intro acc
    simp
  | cons r rest ih =>
    intro acc
    simp only [List.foldl_cons]
    rw [ih, mem_setInsert]
    simp only [List.map_cons, List.mem_cons]
    tauto

theorem mem_build_keyset {α β : Type} [DecidableEq β] (f : α → β)
    (records : List α) (y : β) :
    y ∈ build_keyset f records ↔ y ∈ records.map f := by
  unfold build_keyset
  rw [mem_build_keyset_go]
  simp

theorem mem_keep_inds_go {α : Type} (inds : List Nat) (x : α) :
    ∀ (rs : List α) (start : Nat),
      x ∈ keep_inds_go inds start rs ↔
        ∃ m r, rs[m]? = some r ∧ r = x ∧ (start + m) ∈ inds := by
  intro rs
  induction rs with
  | nil =>
    intro start
    simp [keep_inds_go]
  | cons r rest ih =>
    intro start
    rw [keep_inds_go]
    split
    · rename_i hmem
      rw [List.mem_cons, ih]
      constructor
      · rintro (rfl | ⟨m, r2, hm, rfl, hin⟩)
        · exact ⟨0, x, by simp, rfl, by simpa using hmem⟩
        · refine ⟨m + 1, r2, by simpa using hm, rfl, ?_⟩
          have harith : start + (m + 1) = start + 1 + m := by omega
          rw [harith]
          exact hin
      · rintro ⟨m, r2, hm, rfl, hin⟩
        match m, hm, hin with
        | 0, hm, hin =>
          left
          simp only [List.getElem?_cons_zero, Option.some.injEq] at hm
          exact hm.symm
        | Nat.succ m2, hm, hin =>
          right
          refine ⟨m2, r2, by simpa using hm, rfl, ?_⟩
          have harith : start + 1 + m2 = start + (m2 + 1) := by omega
          rw [harith]
          exact hin
    · rename_i hmem
      rw [ih]
      constructor
      · rintro ⟨m, r2, hm, rfl, hin⟩
        refine ⟨m + 1, r2, by simpa using hm, rfl, ?_⟩
        have harith : start + (m + 1) = start + 1 + m := by omega
        rw [harith]
        exact hin
      · rintro ⟨m, r2, hm, rfl, hin⟩
        match m, hm, hin with
        | 0, hm, hin =>
          exact absurd (by simpa using hin) hmem
        | Nat.succ m2, hm, hin =>
          refine ⟨m2, r2, by simpa using hm, rfl, ?_⟩
          have harith : start + 1 + m2 = start + (m2 + 1) := by omega
          rw [harith]
          exact hin

theorem mem_keep_inds {α : Type} (records : List α) (inds : List Nat) (x : α) :
    x ∈ keep_inds records inds ↔
      ∃ m r, records[m]? = some r ∧ r = x ∧ m ∈ inds := by
  unfold keep_inds
  rw [mem_keep_inds_go]
  constructor
  · rintro ⟨m, r, hm, hr, hin⟩
    exact ⟨m, r, hm, hr, by simpa using hin⟩
  · rintro ⟨m, r, hm, hr, hin⟩
    exact ⟨m, r, hm, hr, by simpa using hin⟩

theorem keep_inds_go_congr {α : Type} {inds1 inds2 : List Nat}
    (h : ∀ j, j ∈ inds1 ↔ j ∈ inds2) :
    ∀ (rs : List α) (start : Nat),
      keep_inds_go inds1 start rs = keep_inds_go inds2 start rs := by
  intro rs
  induction rs with
  | nil =>
    intro start
    rfl
  | cons r rest ih =>
    intro start
    rw [keep_inds_go, keep_inds_go]
    by_cases hmem : start ∈ inds1
    · rw [if_pos hmem, if_pos ((h start).mp hmem), ih]
    · rw [if_neg hmem, if_neg (fun h2 => hmem ((h start).mpr h2)), ih]

theorem keep_inds_go_all {α : Type} (inds : List Nat) :
    ∀ (rs : List α) (start : Nat),
      (∀ m r, rs[m]? = some r → (start + m) ∈ inds) →
      keep_inds_go inds start rs = rs := by
  intro rs
  induction rs with
  | nil =>
    intro start h
    rfl
  | cons r rest ih =>
    intro start h
    rw [keep_inds_go, if_pos (by simpa using h 0 r (by simp)), ih (start + 1)]
    intro m r2 hm
    have h2 := h (m + 1) r2 (by simpa using hm)
    have harith : start + 1 + m = start + (m + 1) := by omega
    rw [harith]
    exact h2

theorem gatherInds_ok {β : Type} [DecidableEq β] (lud : List (β × List Nat)) :
    ∀ (kv : List β), (∀ v ∈ kv, v ∈ lud.map Prod.fst) →
      ∃ inds, gatherInds lud kv = .ok inds ∧
        ∀ j, (j ∈ inds ↔ ∃ v ∈ kv, j ∈ (lookupKV v lud).getD []) := by
  intro kv
  induction kv with
  | nil =>
    intro h
    exact ⟨[], rfl, by simp⟩
  | cons v vs ih =>
    intro h
    have hv : v ∈ lud.map Prod.fst := h v (List.mem_cons_self v vs)
    have hsome := (lookupKV_isSome v lud).mpr hv
    match hl : lookupKV v lud with
    | none =>
      rw [hl] at hsome
      exact absurd hsome (by simp)
    | some l =>
      obtain ⟨inds, hind, hmem⟩ := ih (fun v2 hv2 => h v2 (List.mem_cons_of_mem v hv2))
      refine ⟨l ++ inds, ?_, ?_⟩
      · rw [gatherInds, hl, hind]
      · intro j
        rw [List.mem_append, hmem j]
        constructor
        · rintro (hj | ⟨v2, hv2, hj⟩)
          · exact ⟨v, List.mem_cons_self v vs, by rw [hl]; exact hj⟩
          · exact ⟨v2, List.mem_cons_of_mem v hv2, hj⟩
        · rintro ⟨v2, hv2, hj⟩
          rcases List.mem_cons.mp hv2 with rfl | hv2
          · left
            rw [hl] at hj
            exact hj
          · right
            exact ⟨v2, hv2, hj⟩

theorem cull_keep_eq {α β : Type} [DecidableEq β] (f : α → β) (records : List α)
    (v : β) (vs : List β) :
    cull f records (some (v :: vs)) none =
      (match gatherInds (build_lookup f records) (v :: vs) with
      | .ok inds => .ok (keep_inds records inds)
      | .error e => .error e) := rfl

theorem cull_remove_as_keep {α β : Type} [DecidableEq β] (f : α → β)
    (records : List α) (keep_values : Option (List β)) (d : β) (ds : List β) :
    cull f records keep_values (some (d :: ds)) =
      cull f records
        (some (((build_lookup f records).map Prod.fst).filter
          (fun k => decide (k ∉ (d :: ds))))) none := rfl

theorem keep_inds_all {α : Type} (records : List α) (inds : List Nat)
    (h : ∀ m r, records[m]? = some r → m ∈ inds) :
    keep_inds records inds = records := by
  unfold keep_inds
  apply keep_inds_go_all
  intro m r hm
  simpa using h m r hm

theorem cullResult_keep_congr {α β : Type} [DecidableEq β] (f : α → β)
    (records : List α) (kv1 kv2 : List β)
    (hsub1 : ∀ v ∈ kv1, v ∈ records.map f)
    (hsub2 : ∀ v ∈ kv2, v ∈ records.map f)
    (heq : ∀ x, x ∈ kv1 ↔ x ∈ kv2) :
    cullResult records (cull f records (some kv1) none) =
      cullResult records (cull f records (some kv2) none) := by
  match kv1, kv2 with
  | [], [] => rfl
  | [], x :: xs => exact absurd ((heq x).mpr (List.mem_cons_self x xs)) (by simp)
  | x :: xs, [] => exact absurd ((heq x).mp (List.mem_cons_self x xs)) (by simp)
  | x :: xs, y :: ys =>
    have hkeys1 : ∀ v ∈ x :: xs, v ∈ (build_lookup f records).map Prod.fst := by
      intro v hv
      exact (mem_keys_build_lookup f records v).mpr (hsub1 v hv)
    have hkeys2 : ∀ v ∈ y :: ys, v ∈ (build_lookup f records).map Prod.fst := by
      intro v hv
      exact (mem_keys_build_lookup f records v).mpr (hsub2 v hv)
    obtain ⟨inds1, hg1, hmem1⟩ := gatherInds_ok (build_lookup f records) (x :: xs) hkeys1
    obtain ⟨inds2, hg2, hmem2⟩ := gatherInds_ok (build_lookup f records) (y :: ys) hkeys2
    rw [cull_keep_eq, cull_keep_eq, hg1, hg2]
    show keep_inds records inds1 = keep_inds records inds2
    unfold keep_inds
    apply keep_inds_go_congr
    intro j
    rw [hmem1 j, hmem2 j]
    constructor
    · rintro ⟨v, hv, hj⟩
      exact ⟨v, (heq v).mp hv, hj⟩
    · rintro ⟨v, hv, hj⟩
      exact ⟨v, (heq v).mpr hv, hj⟩

theorem cullResult_keep_keyset {α β : Type} [DecidableEq β] (f : α → β)
    (records : List α) :
    cullResult records (cull f records (some (build_keyset f records)) none) =
      records := by
  match records with
  | [] => rfl
  | r :: rs =>
    have hmem : f r ∈ build_keyset f (r :: rs) :=
      (mem_build_keyset f (r :: rs) (f r)).mpr (by simp)
    match hks : build_keyset f (r :: rs) with
    | [] =>
      rw [hks] at hmem
      exact absurd hmem (by simp)
    | k :: ks =>
      have hkeys : ∀ v ∈ k :: ks, v ∈ (build_lookup f (r :: rs)).map Prod.fst := by
        intro v hv
        rw [mem_keys_build_lookup]
        rw [← hks] at hv
        exact (mem_build_keyset f (r :: rs) v).mp hv
      obtain ⟨inds, hg, hmemi⟩ := gatherInds_ok (build_lookup f (r :: rs)) (k :: ks) hkeys
      rw [cull_keep_eq, hg]
      show keep_inds (r :: rs) inds = r :: rs
      apply keep_inds_all
      intro m r2 hm
      rw [hmemi m]
      refine ⟨f r2, ?_, ?_⟩
      · rw [← hks]
        exact (mem_build_keyset f (r :: rs) (f r2)).mpr
          (List.mem_map.mpr ⟨r2, List.getElem?_mem hm, rfl⟩)
      · rw [mem_build_lookup]
        exact ⟨r2, hm, rfl⟩

/-- C3: culling by `remove_values = D` leaves the container in the same
final state (same surviving records in the same order) as culling with
`keep_values` equal to the distinct values of the field computed before
the call minus `D` — including the degenerate cases where one side raises
and leaves the records untouched. -/
theorem c3_remove_keep_equiv {α β : Type} [DecidableEq β] (f : α → β)
    (records : List α) (D : List β) :
    cullResult records (cull f records none (some D)) =
      cullResult records (cull f records
        (some ((build_keyset f records).filter (fun v => decide (v ∉ D)))) none) := by
  cases D with
  | nil =>
    have hK : (build_keyset f records).filter (fun v => decide (v ∉ ([] : List β))) =
        build_keyset f records :=
      List.filter_eq_self.mpr (by simp)
    rw [hK, cullResult_keep_keyset]
    rfl
  | cons d ds =>
    rw [cull_remove_as_keep]
    apply cullResult_keep_congr
    · intro v hv
      rw [List.mem_filter] at hv
      exact (mem_keys_build_lookup f records v).mp hv.1
    · intro v hv
      rw [List.mem_filter] at hv
      exact (mem_build_keyset f records v).mp hv.1
    · intro x
      rw [List.mem_filter, List.mem_filter, mem_keys_build_lookup, mem_build_keyset]

/-- C2 (amended): culling with `keep_values = V` (and no `remove_values`)
succeeds for every non-empty `V` all of whose values occur in the field,
and afterwards the distinct values of the field are exactly `V`
intersected with the distinct values before the call. -/
theorem c2_cull_keep {α β : Type} [DecidableEq β] (f : α → β) (records : List α)
    (V : List β) (hne : V ≠ []) (hsub : ∀ v ∈ V, v ∈ records.map f) :
    ∃ res, cull f records (some V) none = .ok res ∧
      ∀ x, (x ∈ build_keyset f res ↔ (x ∈ V ∧ x ∈ build_keyset f records)) := by
  match V, hne with
  | v :: vs, _ =>
    have hkeys : ∀ w ∈ v :: vs, w ∈ (build_lookup f records).map Prod.fst := by
      intro w hw
      exact (mem_keys_build_lookup f records w).mpr (hsub w hw)
    obtain ⟨inds, hg, hmem⟩ := gatherInds_ok (build_lookup f records) (v :: vs) hkeys
    refine ⟨keep_inds records inds, ?_, ?_⟩
    · rw [cull_keep_eq, hg]
    · intro x
      rw [mem_build_keyset, mem_build_keyset]
      constructor
      · intro hx
        obtain ⟨r, hr, rfl⟩ := List.mem_map.mp hx
        obtain ⟨m, r2, hm, rfl, hin⟩ := (mem_keep_inds records inds r).mp hr
        obtain ⟨w, hw, hj⟩ := (hmem m).mp hin
        obtain ⟨r3, hm3, hf3⟩ := (mem_build_lookup f records w m).mp hj
        rw [hm] at hm3
        have hr23 : r2 = r3 := by
          simpa using hm3
        constructor
        · rw [hr23, hf3]
          exact hw
        · exact List.mem_map.mpr ⟨r2, List.getElem?_mem hm, rfl⟩
      · rintro ⟨hxV, hxrec⟩
        obtain ⟨r, hr, rfl⟩ := List.mem_map.mp hxrec
        obtain ⟨m, hm⟩ := List.mem_iff_getElem?.mp hr
        refine List.mem_map.mpr ⟨r, ?_, rfl⟩
        rw [mem_keep_inds]
        refine ⟨m, r, hm, rfl, ?_⟩
        rw [hmem m]
        refine ⟨f r, hxV, ?_⟩
        rw [mem_build_lookup]
        exact ⟨r, hm, rfl⟩

/-- Witness for C2 (amended) on records `[1, 2, 2, 3]` over the identity
field with `V = [2]`: the cull succeeds and the remaining distinct values
are exactly `{2}`. -/
theorem c2_cull_keep_witness :
    ∃ res, cull (fun n : Nat => n) [1, 2, 2, 3] (some [2]) none = .ok res ∧
      ∀ x, (x ∈ build_keyset (fun n : Nat => n) res ↔
        (x ∈ [2] ∧ x ∈ build_keyset (fun n : Nat => n) [1, 2, 2, 3])) :=
  c2_cull_keep (fun n : Nat => n) [1, 2, 2, 3] [2] (by decide) (by decide)

/-- Counterexample to C2 as stated: culling the container `[0]` (over the
identity field) with `keep_values = [1]` raises the `KeyError 1` from
`lud[1]`, because `build_lookup` returns a plain dict whose only key is
`0`; the call does not succeed. -/
theorem c2_counterexample :
    cull (fun n : Nat => n) [0] (some [1]) none = .error (.keyError 1) := rfl

/-- C10: when both `keep_values` and `remove_values` are non-empty,
`remove_values` wins — the supplied `keep_values` is overwritten before it
is ever read, so the call is identical to culling with `remove_values`
alone, and no error is raised about the double criterion. -/
theorem c10_remove_precedence {α β : Type} [DecidableEq β] (f : α → β)
    (records : List α) (K D : List β) (hK : K ≠ []) (hD : D ≠ []) :
    cull f records (some K) (some D) = cull f records none (some D) := by
  cases D with
  | nil => exact absurd rfl hD
  | cons d ds => rfl

/-- Witness for C10 on records `[1, 2]` with `keep_values = [1]` and
`remove_values = [2]`. -/
theorem c10_remove_precedence_witness :
    cull (fun n : Nat => n) [1, 2] (some [1]) (some [2]) =
      cull (fun n : Nat => n) [1, 2] none (some [2]) :=
  c10_remove_precedence (fun n : Nat => n) [1, 2] [1] [2] (by decide) (by decide)

/-! ## BaseDataRecord and DataRecords serialization
(src/eta/core/data.py, lines 254-299, 380-415, 426-538)

A record instance is embedded as its attribute dictionary (Python
`vars(self)` in insertion order).  A record class is embedded as its
declared `required()` and `optional()` field lists (the claims concern
classes with the default empty `excluded()`).  The `no_default` sentinel
from `eta.core.config` is a distinguished attribute value. -/

/-- Attribute values: the `no_default` sentinel, Python `None`, and
ordinary JSON-representable payloads. -/
inductive RecValue where
  | null
  | no_default
  | str (s : String)
  | int (n : Int)
deriving DecidableEq, Repr

/-- A record instance: its attribute dictionary. -/
structure Record where
  attrs : List (String × RecValue)
deriving DecidableEq, Repr

/-- A concrete `BaseDataRecord` subclass: its `required()` and
`optional()` field-name lists. -/
structure RecordCls where
  required : List String
  optional : List String
deriving DecidableEq, Repr

/-- `LabeledVideoRecord` (lines 514-538): required `video_path`, `label`;
optional `group`. -/
def LabeledVideoRecordCls : RecordCls := ⟨["video_path", "label"], ["group"]⟩

/-- `BaseDataRecord.clean_optional` (lines 460-468): delete every optional
attribute whose value is the `no_default` sentinel. -/
def clean_optional (optional : List String) (attrs : List (String × RecValue)) :
    List (String × RecValue) :=
  attrs.filter
    (fun kv => !(decide (kv.1 ∈ optional) && decide (kv.2 = RecValue.no_default)))

/-- The constructor pattern every concrete record class follows
(exemplified by `LabeledVideoRecord.__init__`, lines 525-530): assign each
declared field from the keyword arguments, defaulting absent optional
fields to `no_default`, then run `clean_optional` via the base
constructor. -/
def RecordCls.construct (cls : RecordCls) (kwargs : List (String × RecValue)) :
    Record :=
  ⟨clean_optional cls.optional
    ((cls.required ++ cls.optional).map
      (fun k => (k, (lookupKV k kwargs).getD RecValue.no_default)))⟩

/-- The `KeyError` raised by `d[k]` in `BaseDataRecord.from_dict` when a
required key is absent. -/
inductive RecordError where
  | missingKey (k : String)
deriving DecidableEq, Repr

/-- The comprehension `{k: d[k] for k in cls.required()}` (line 487):
collects the required entries in declaration order, raising `KeyError` at
the first missing required key. -/
def getRequired (d : List (String × RecValue)) :
    List String → Except RecordError (List (String × RecValue))
  | [] => .ok []
  | k :: ks =>
    match lookupKV k d with
    | none => .error (.missingKey k)
    | some v =>
      match getRequired d ks with
      | .ok rest => .ok ((k, v) :: rest)
      | .error e => .error e

/-- `BaseDataRecord.from_dict` (lines 470-489): required entries (all
mandatory), plus the optional entries present in the dictionary, passed to
the class constructor. -/
def RecordCls.from_dict (cls : RecordCls) (d : List (String × RecValue)) :
    Except RecordError Record :=
  match getRequired d cls.required with
  | .error e => .error e
  | .ok req =>
    .ok (cls.construct (req ++
      cls.optional.filterMap (fun k => (lookupKV k d).map (fun v => (k, v)))))

/-- The Python test `a.startswith("_")` on an attribute name, embedded on
the character list of the string. -/
def isPrivateName (k : String) : Bool :=
  match k.data with
  | [] => false
  | c :: _ => c = '_'

/-- Serialization of one record: `BaseDataRecord.attributes` (lines
447-458) keeps every non-private attribute (the claims concern classes
with empty `excluded()`), and `Serializable.serialize` (eta.core.serial,
not under src/; modelled from the spec) emits them in order. -/
def Record.to_dict (r : Record) : List (String × RecValue) :=
  r.attrs.filter (fun kv => !(isPrivateName kv.1))

/-- Well-formedness of a record class declaration: no duplicate field
names, required and optional disjoint, no private (underscore) names.
Every record class in the repository satisfies this. -/
def RecordCls.wf (cls : RecordCls) : Prop :=
  cls.required.Nodup ∧ cls.optional.Nodup ∧
  (∀ k ∈ cls.required, k ∉ cls.optional) ∧
  (∀ k ∈ cls.required, isPrivateName k = false) ∧
  (∀ k ∈ cls.optional, isPrivateName k = false)

instance (cls : RecordCls) : Decidable cls.wf := by
  unfold RecordCls.wf
  infer_instance

/-- A record is an instance of the class as produced by its constructor:
the required attributes in declaration order (any values), followed by a
subsequence of the optional attributes, none holding the sentinel. -/
def RecordCls.isInstance (cls : RecordCls) (r : Record) : Bool :=
  decide ((r.attrs.take cls.required.length).map Prod.fst = cls.required) &&
  decide (List.Sublist ((r.attrs.drop cls.required.length).map Prod.fst)
    cls.optional) &&
  decide (∀ kv ∈ r.attrs.drop cls.required.length, kv.2 ≠ RecValue.no_default)

theorem lookupKV_eq_none {κ γ : Type} [DecidableEq κ] {k : κ} :
    ∀ {l : List (κ × γ)}, k ∉ l.map Prod.fst → lookupKV k l = none := by
  intro l
  induction l with
  | nil => intro h; rfl
  | cons kv rest ih =>
    match kv with
    | (a, v) =>
      intro h
      simp only [List.map_cons, List.mem_cons] at h
      push_neg at h
      rw [lookupKV, if_neg h.1]
      exact ih h.2

theorem lookupKV_mem {κ γ : Type} [DecidableEq κ] {k : κ} {v : γ} :
    ∀ {l : List (κ × γ)}, lookupKV k l = some v → (k, v) ∈ l := by
  intro l
  induction l with
  | nil => intro h; exact Option.noConfusion h
  | cons kv rest ih =>
    match kv with
    | (a, w) =>
      intro h
      rw [lookupKV] at h
      split at h
      · rename_i heq
        simp only [Option.some.injEq] at h
        rw [heq, h]
        exact List.mem_cons_self _ _
      · exact List.mem_cons_of_mem _ (ih h)

theorem lookupKV_append_left {κ γ : Type} [DecidableEq κ] {k : κ} {q : List (κ × γ)} :
    ∀ {p : List (κ × γ)}, k ∈ p.map Prod.fst →
      lookupKV k (p ++ q) = lookupKV k p := by
  intro p
  induction p with
  | nil => intro h; exact absurd h (by simp)
  | cons kv rest ih =>
    match kv with
    | (a, v) =>
      intro h
      by_cases hk : k = a
      · rw [List.cons_append, lookupKV, lookupKV, if_pos hk, if_pos hk]
      · simp only [List.map_cons, List.mem_cons] at h
        rcases h with h | h
        · exact absurd h hk
        · rw [List.cons_append, lookupKV, lookupKV, if_neg hk, if_neg hk]
          exact ih h

theorem lookupKV_append_right {κ γ : Type} [DecidableEq κ] {k : κ} {q : List (κ × γ)} :
    ∀ {p : List (κ × γ)}, k ∉ p.map Prod.fst →
      lookupKV k (p ++ q) = lookupKV k q := by
  intro p
  induction p with
  | nil => intro h; rfl
  | cons kv rest ih =>
    match kv with
    | (a, v) =>
      intro h
      simp only [List.map_cons, List.mem_cons] at h
      push_neg at h
      rw [List.cons_append, lookupKV, if_neg h.1]
      exact ih h.2

theorem map_lookupKV_self {κ γ : Type} [DecidableEq κ] (x : γ) :
    ∀ (p : List (κ × γ)), (p.map Prod.fst).Nodup →
      (p.map Prod.fst).map (fun k => (k, (lookupKV k p).getD x)) = p := by
  intro p
  induction p with
  | nil => intro hnd; rfl
  | cons kv rest ih =>
    match kv with
    | (a, v) =>
      intro hnd
      simp only [List.map_cons, List.nodup_cons] at hnd ⊢
      have hhead : (lookupKV a ((a, v) :: rest)).getD x = v := by
        rw [lookupKV, if_pos rfl]
        rfl
      have h1 : ∀ k ∈ rest.map Prod.fst,
          (k, (lookupKV k ((a, v) :: rest)).getD x) =
            (k, (lookupKV k rest).getD x) := by
        intro k hk
        have hka : ¬ k = a := fun hcon => hnd.1 (hcon ▸ hk)
        rw [lookupKV, if_neg hka]
      rw [hhead, List.map_congr_left h1, ih hnd.2]

theorem map_fst_map_pair {κ γ : Type} (g : κ → γ) :
    ∀ (l : List κ), (l.map (fun k => (k, g k))).map Prod.fst = l := by
  intro l
  induction l with
  | nil => rfl
  | cons a rest ih => simp [ih]

theorem filterMap_pair_keys_sublist {γ : Type} (g : String → Option γ) :
    ∀ (l : List String),
      List.Sublist
        ((l.filterMap (fun k => (g k).map (fun v => (k, v)))).map Prod.fst) l := by
  intro l
  induction l with
  | nil => exact List.Sublist.refl []
  | cons o os ih =>
    rw [List.filterMap_cons]
    cases g o with
    | none => exact List.Sublist.cons o ih
    | some v =>
      simp only [Option.map_some']
      rw [List.map_cons]
      exact List.Sublist.cons₂ o ih

theorem sublist_nil_pairs {p : List (String × RecValue)}
    (hsub : List.Sublist (p.map Prod.fst) ([] : List String)) : p = [] := by
  have h0 : p.map Prod.fst = [] := List.sublist_nil.mp hsub
  cases p with
  | nil => rfl
  | cons kv t => exact absurd h0 (by simp)

theorem filterMap_lookupKV_sub :
    ∀ (opt : List String) (p : List (String × RecValue)), opt.Nodup →
      List.Sublist (p.map Prod.fst) opt →
      opt.filterMap (fun k => (lookupKV k p).map (fun v => (k, v))) = p := by
  intro opt
  induction opt with
  | nil =>
    intro p hnd hsub
    rw [sublist_nil_pairs hsub]
    rfl
  | cons o os ih =>
    intro p hnd hsub
    rw [List.nodup_cons] at hnd
    match p with
    | [] =>
      apply List.filterMap_eq_nil_iff.mpr
      intro k hk
      rfl
    | (a, v) :: t =>
      simp only [List.map_cons] at hsub
      cases hsub
      case cons h2 =>
        have ho : o ∉ ((a, v) :: t).map Prod.fst := by
          intro hmem
          exact hnd.1 (h2.subset (by simpa using hmem))
        rw [List.filterMap_cons, lookupKV_eq_none ho]
        simp only [Option.map_none']
        exact ih ((a, v) :: t) hnd.2 (by simpa using h2)
      case cons₂ h2 =>
        rw [List.filterMap_cons]
        have hla : lookupKV o ((o, v) :: t) = some v := by
          rw [lookupKV, if_pos rfl]
        rw [hla]
        simp only [Option.map_some']
        have h1 : ∀ k ∈ os, (lookupKV k ((o, v) :: t)).map (fun w => (k, w)) =
            (lookupKV k t).map (fun w => (k, w)) := by
          intro k hk
          have hka : ¬ k = o := fun hcon => hnd.1 (hcon ▸ hk)
          rw [lookupKV, if_neg hka]
        rw [List.filterMap_congr h1, ih t hnd.2 h2]

theorem filter_expand_nil (l : List String) :
    ((l.map (fun k =>
        (k, (lookupKV k ([] : List (String × RecValue))).getD
          RecValue.no_default))).filter
      (fun kv => !(decide (kv.2 = RecValue.no_default)))) = [] := by
  induction l with
  | nil => rfl
  | cons o os ih => simpa [lookupKV] using ih

theorem filter_expand :
    ∀ (opt : List String) (p : List (String × RecValue)), opt.Nodup →
      List.Sublist (p.map Prod.fst) opt →
      (∀ kv ∈ p, kv.2 ≠ RecValue.no_default) →
      (opt.map (fun k => (k, (lookupKV k p).getD RecValue.no_default))).filter
        (fun kv => !(decide (kv.2 = RecValue.no_default))) = p := by
  intro opt
  induction opt with
  | nil =>
    intro p hnd hsub hv
    rw [sublist_nil_pairs hsub]
    rfl
  | cons o os ih =>
    intro p hnd hsub hv
    rw [List.nodup_cons] at hnd
    match p with
    | [] => exact filter_expand_nil (o :: os)
    | (a, v) :: t =>
      simp only [List.map_cons] at hsub
      cases hsub
      case cons h2 =>
        have ho : o ∉ ((a, v) :: t).map Prod.fst := by
          intro hmem
          exact hnd.1 (h2.subset (by simpa using hmem))
        simp only [List.map_cons, List.filter_cons, lookupKV_eq_none ho,
          Option.getD_none]
        rw [if_neg (by simp)]
        exact ih ((a, v) :: t) hnd.2 (by simpa using h2) hv
      case cons₂ h2 =>
        have hla : lookupKV o ((o, v) :: t) = some v := by
          rw [lookupKV, if_pos rfl]
        have hvne : v ≠ RecValue.no_default := hv (o, v) (List.mem_cons_self _ _)
        simp only [List.map_cons, List.filter_cons, hla, Option.getD_some]
        rw [if_pos (by simpa using hvne)]
        have h1 : ∀ k ∈ os,
            (k, (lookupKV k ((o, v) :: t)).getD RecValue.no_default) =
              (k, (lookupKV k t).getD RecValue.no_default) := by
          intro k hk
          have hka : ¬ k = o := fun hcon => hnd.1 (hcon ▸ hk)
          rw [lookupKV, if_neg hka]
        rw [List.map_congr_left h1,
          ih t hnd.2 h2 (fun kv hkv => hv kv (List.mem_cons_of_mem _ hkv))]

theorem construct_eq (cls : RecordCls) (p q : List (String × RecValue))
    (hwf : cls.wf) (hp : p.map Prod.fst = cls.required)
    (hq : List.Sublist (q.map Prod.fst) cls.optional)
    (hv : ∀ kv ∈ q, kv.2 ≠ RecValue.no_default) :
    cls.construct (p ++ q) = ⟨p ++ q⟩ := by
  obtain ⟨hndr, hndo, hdisj, hprivr, hprivo⟩ := hwf
  unfold RecordCls.construct clean_optional
  congr 1
  rw [List.map_append, List.filter_append]
  have hreq : cls.required.map
      (fun k => (k, (lookupKV k (p ++ q)).getD RecValue.no_default)) = p := by
    rw [← hp]
    have h1 : ∀ k ∈ p.map Prod.fst,
        (k, (lookupKV k (p ++ q)).getD RecValue.no_default) =
          (k, (lookupKV k p).getD RecValue.no_default) :=
      fun k hk => by rw [lookupKV_append_left hk]
    rw [List.map_congr_left h1]
    exact map_lookupKV_self RecValue.no_default p (by rw [hp]; exact hndr)
  rw [hreq]
  have hfreq : p.filter
      (fun kv => !(decide (kv.1 ∈ cls.optional) &&
        decide (kv.2 = RecValue.no_default))) = p := by
    apply List.filter_eq_self.mpr
    intro kv hkv
    have h1 : kv.1 ∈ cls.required := by
      rw [← hp]
      exact List.mem_map.mpr ⟨kv, hkv, rfl⟩
    have h2 : kv.1 ∉ cls.optional := hdisj kv.1 h1
    simp [h2]
  rw [hfreq]
  have hoptmap : cls.optional.map
      (fun k => (k, (lookupKV k (p ++ q)).getD RecValue.no_default)) =
        cls.optional.map
          (fun k => (k, (lookupKV k q).getD RecValue.no_default)) := by
    apply List.map_congr_left
    intro k hk
    rw [lookupKV_append_right]
    rw [hp]
    exact fun hcon => hdisj k hcon hk
  rw [hoptmap]
  have hopred : ∀ kv ∈ cls.optional.map
      (fun k => (k, (lookupKV k q).getD RecValue.no_default)),
      (!(decide (kv.1 ∈ cls.optional) && decide (kv.2 = RecValue.no_default))) =
        (!(decide (kv.2 = RecValue.no_default))) := by
    intro kv hkv
    obtain ⟨k, hk, rfl⟩ := List.mem_map.mp hkv
    simp [hk]
  rw [List.filter_congr hopred, filter_expand cls.optional q hndo hq hv]

theorem getRequired_ok (d : List (String × RecValue)) :
    ∀ (req : List String), (∀ k ∈ req, (lookupKV k d).isSome = true) →
      getRequired d req =
        .ok (req.map (fun k => (k, (lookupKV k d).getD RecValue.no_default))) := by
  intro req
  induction req with
  | nil => intro h; rfl
  | cons k ks ih =>
    intro h
    have hk := h k (List.mem_cons_self k ks)
    match hl : lookupKV k d with
    | none =>
      rw [hl] at hk
      exact absurd hk (by simp)
    | some v =>
      rw [getRequired, hl, ih (fun k2 hk2 => h k2 (List.mem_cons_of_mem k hk2))]
      simp [hl]

theorem getRequired_error (d : List (String × RecValue)) :
    ∀ (req : List String), (∃ k, k ∈ req ∧ lookupKV k d = none) →
      ∃ k, k ∈ req ∧ lookupKV k d = none ∧
        getRequired d req = .error (.missingKey k) := by
  intro req
  induction req with
  | nil =>
    rintro ⟨k, hk, hl⟩
    exact absurd hk (by simp)
  | cons k ks ih =>
    rintro ⟨k2, hk2, hl2⟩
    match hl : lookupKV k d with
    | none =>
      refine ⟨k, List.mem_cons_self k ks, hl, ?_⟩
      rw [getRequired, hl]
    | some v =>
      have hex : ∃ k3, k3 ∈ ks ∧ lookupKV k3 d = none := by
        rcases List.mem_cons.mp hk2 with rfl | hmem
        · rw [hl] at hl2
          exact absurd hl2 (by simp)
        · exact ⟨k2, hmem, hl2⟩
      obtain ⟨k3, hk3, hl3, hge⟩ := ih hex
      refine ⟨k3, List.mem_cons_of_mem k hk3, hl3, ?_⟩
      rw [getRequired, hl, hge]

theorem from_dict_ok_eq (cls : RecordCls) (d : List (String × RecValue))
    (req : List (String × RecValue)) (h : getRequired d cls.required = .ok req) :
    cls.from_dict d = .ok (cls.construct (req ++
      cls.optional.filterMap (fun k => (lookupKV k d).map (fun v => (k, v))))) := by
  unfold RecordCls.from_dict
  rw [h]

theorem from_dict_error_eq (cls : RecordCls) (d : List (String × RecValue))
    (e : RecordError) (h : getRequired d cls.required = .error e) :
    cls.from_dict d = .error e := by
  unfold RecordCls.from_dict
  rw [h]

theorem record_parts_to_dict (cls : RecordCls)
    (P Q : List (String × RecValue)) (hwf : cls.wf)
    (hp : P.map Prod.fst = cls.required)
    (hsub : List.Sublist (Q.map Prod.fst) cls.optional) :
    Record.to_dict ⟨P ++ Q⟩ = P ++ Q := by
  obtain ⟨hndr, hndo, hdisj, hprivr, hprivo⟩ := hwf
  unfold Record.to_dict
  apply List.filter_eq_self.mpr
  intro kv hkv
  rcases List.mem_append.mp hkv with h | h
  · have h1 : kv.1 ∈ cls.required := by
      rw [← hp]
      exact List.mem_map.mpr ⟨kv, h, rfl⟩
    simp [hprivr kv.1 h1]
  · have h1 : kv.1 ∈ cls.optional := hsub.subset (List.mem_map.mpr ⟨kv, h, rfl⟩)
    simp [hprivo kv.1 h1]

theorem from_dict_parts (cls : RecordCls) (P Q : List (String × RecValue))
    (hwf : cls.wf) (hp : P.map Prod.fst = cls.required)
    (hsub : List.Sublist (Q.map Prod.fst) cls.optional)
    (hv : ∀ kv ∈ Q, kv.2 ≠ RecValue.no_default) :
    cls.from_dict (P ++ Q) = .ok ⟨P ++ Q⟩ := by
  obtain ⟨hndr, hndo, hdisj, hprivr, hprivo⟩ := hwf
  have hsomes : ∀ k ∈ cls.required, (lookupKV k (P ++ Q)).isSome = true := by
    intro k hk
    rw [lookupKV_append_left (by rw [hp]; exact hk), lookupKV_isSome, hp]
    exact hk
  have hreq : cls.required.map
      (fun k => (k, (lookupKV k (P ++ Q)).getD RecValue.no_default)) = P := by
    have h1 : ∀ k ∈ P.map Prod.fst,
        (k, (lookupKV k (P ++ Q)).getD RecValue.no_default) =
          (k, (lookupKV k P).getD RecValue.no_default) := by
      intro k hk
      rw [lookupKV_append_left hk]
    rw [← hp, List.map_congr_left h1]
    exact map_lookupKV_self RecValue.no_default P (by rw [hp]; exact hndr)
  have hopt : cls.optional.filterMap
      (fun k => (lookupKV k (P ++ Q)).map (fun v => (k, v))) = Q := by
    have h1 : ∀ k ∈ cls.optional,
        (lookupKV k (P ++ Q)).map (fun v => (k, v)) =
          (lookupKV k Q).map (fun v => (k, v)) := by
      intro k hk
      rw [lookupKV_append_right]
      rw [hp]
      exact fun hcon => hdisj k hcon hk
    rw [List.filterMap_congr h1]
    exact filterMap_lookupKV_sub cls.optional Q hndo hsub
  rw [from_dict_ok_eq cls (P ++ Q) _ (getRequired_ok (P ++ Q) cls.required hsomes)]
  rw [hreq, hopt,
    construct_eq cls P Q ⟨hndr, hndo, hdisj, hprivr, hprivo⟩ hp hsub hv]

theorem from_dict_to_dict (cls : RecordCls) (r : Record) (hwf : cls.wf)
    (hinst : cls.isInstance r = true) :
    cls.from_dict r.to_dict = .ok r := by
  unfold RecordCls.isInstance at hinst
  simp only [Bool.and_eq_true, decide_eq_true_eq] at hinst
  obtain ⟨⟨hp, hsub⟩, hv⟩ := hinst
  have hattrs : r.attrs =
      r.attrs.take cls.required.length ++ r.attrs.drop cls.required.length :=
    (List.take_append_drop _ _).symm
  have hr : r = ⟨r.attrs.take cls.required.length ++
      r.attrs.drop cls.required.length⟩ := by
    rw [← hattrs]
  rw [hr, record_parts_to_dict cls _ _ hwf hp hsub]
  exact from_dict_parts cls _ _ hwf hp hsub hv

/-- C8: for every record class and input map over JSON-representable
values, `from_dict` raises a `KeyError` naming a missing required key (and
constructs no record) whenever some required name is absent; when all
required names are present it succeeds, the record carries exactly the
required entries plus every optional entry present in the map, and keys
that are neither required nor optional are ignored — absent from the
record and causing no error. -/
theorem c8_from_dict (cls : RecordCls) (d : List (String × RecValue))
    (hwf : cls.wf) (hd : ∀ kv ∈ d, kv.2 ≠ RecValue.no_default) :
    ((∃ k, k ∈ cls.required ∧ lookupKV k d = none) →
      ∃ k, k ∈ cls.required ∧ lookupKV k d = none ∧
        cls.from_dict d = .error (.missingKey k)) ∧
    ((∀ k ∈ cls.required, (lookupKV k d).isSome = true) →
      cls.from_dict d = .ok ⟨
        cls.required.map (fun k => (k, (lookupKV k d).getD RecValue.no_default)) ++
        cls.optional.filterMap (fun k => (lookupKV k d).map (fun v => (k, v)))⟩) ∧
    (∀ k, k ∉ cls.required → k ∉ cls.optional → ∀ r,
      cls.from_dict d = .ok r → lookupKV k r.attrs = none) := by
  refine ⟨?_, ?_, ?_⟩
  · intro hex
    obtain ⟨k, hk, hl, hge⟩ := getRequired_error d cls.required hex
    exact ⟨k, hk, hl, from_dict_error_eq cls d _ hge⟩
  · intro h
    have hp : (cls.required.map
        (fun k => (k, (lookupKV k d).getD RecValue.no_default))).map Prod.fst =
          cls.required := map_fst_map_pair _ _
    have hsub := filterMap_pair_keys_sublist (fun k => lookupKV k d) cls.optional
    have hv : ∀ kv ∈ cls.optional.filterMap
        (fun k => (lookupKV k d).map (fun v => (k, v))),
        kv.2 ≠ RecValue.no_default := by
      intro kv hkv
      obtain ⟨k, hk, hfk⟩ := List.mem_filterMap.mp hkv
      match hl : lookupKV k d with
      | none =>
        rw [hl] at hfk
        exact Option.noConfusion hfk
      | some v =>
        rw [hl] at hfk
        simp only [Option.map_some', Option.some.injEq] at hfk
        rw [← hfk]
        exact hd (k, v) (lookupKV_mem hl)
    rw [from_dict_ok_eq cls d _ (getRequired_ok d cls.required h),
      construct_eq cls _ _ hwf hp hsub hv]
  · intro k hkr hko r hok
    match hgr : getRequired d cls.required with
    | .error e =>
      rw [from_dict_error_eq cls d e hgr] at hok
      exact Except.noConfusion hok
    | .ok req =>
      rw [from_dict_ok_eq cls d req hgr] at hok
      simp only [Except.ok.injEq] at hok
      rw [← hok]
      apply lookupKV_eq_none
      intro hmem
      unfold RecordCls.construct clean_optional at hmem
      simp only at hmem
      obtain ⟨kv, hkv, hfst⟩ := List.mem_map.mp hmem
      have hkv2 := (List.filter_sublist _).subset hkv
      obtain ⟨a, ha, hpa⟩ := List.mem_map.mp hkv2
      have hka : a = k := by
        rw [← hpa] at hfst
        exact hfst
      rcases List.mem_append.mp ha with h3 | h3
      · exact hkr (hka ▸ h3)
      · exact hko (hka ▸ h3)

/-- Witness for C8 on `LabeledVideoRecord`: a map carrying both required
keys, no `group`, and an unknown key `junk` parses to the record with
exactly the two required attributes. -/
theorem c8_from_dict_witness :
    LabeledVideoRecordCls.from_dict
        [("video_path", RecValue.str "a.mp4"), ("label", RecValue.str "cat"),
          ("junk", RecValue.int 1)] =
      .ok ⟨[("video_path", RecValue.str "a.mp4"),
        ("label", RecValue.str "cat")]⟩ := by
  have h := (c8_from_dict LabeledVideoRecordCls
    [("video_path", RecValue.str "a.mp4"), ("label", RecValue.str "cat"),
      ("junk", RecValue.int 1)] (by decide) (by decide)).2.1 (by decide)
  rw [h]
  decide

/-- C9: a record constructed with only its required fields supplied has
every optional field deleted — absent from the attribute dictionary and
from the serialized form; an optional field explicitly set to `None` is
kept and serialized, so `None` is distinct from unset. -/
theorem c9_unset_optional (cls : RecordCls) (hwf : cls.wf) :
    (∀ kwargs : List (String × RecValue), kwargs.map Prod.fst = cls.required →
      cls.construct kwargs = ⟨kwargs⟩ ∧
      ∀ o ∈ cls.optional, lookupKV o (cls.construct kwargs).attrs = none ∧
        lookupKV o (Record.to_dict (cls.construct kwargs)) = none) ∧
    (∀ (kwargs : List (String × RecValue)) (o : String),
      kwargs.map Prod.fst = cls.required → o ∈ cls.optional →
      cls.construct (kwargs ++ [(o, RecValue.null)]) =
        ⟨kwargs ++ [(o, RecValue.null)]⟩ ∧
      lookupKV o (Record.to_dict
        (cls.construct (kwargs ++ [(o, RecValue.null)]))) =
          some RecValue.null) := by
  obtain ⟨hndr, hndo, hdisj, hprivr, hprivo⟩ := hwf
  constructor
  · intro kwargs hk
    have hcon := construct_eq cls kwargs [] ⟨hndr, hndo, hdisj, hprivr, hprivo⟩
      hk (by exact List.nil_sublist cls.optional) (by simp)
    rw [List.append_nil] at hcon
    refine ⟨hcon, ?_⟩
    intro o ho
    have hno : o ∉ kwargs.map Prod.fst := by
      rw [hk]
      exact fun hcon2 => hdisj o hcon2 ho
    have htd := record_parts_to_dict cls kwargs []
      ⟨hndr, hndo, hdisj, hprivr, hprivo⟩ hk (List.nil_sublist cls.optional)
    rw [List.append_nil] at htd
    rw [hcon]
    exact ⟨lookupKV_eq_none hno, by rw [htd]; exact lookupKV_eq_none hno⟩
  · intro kwargs o hk ho
    have hsub : List.Sublist ([(o, RecValue.null)].map Prod.fst) cls.optional :=
      List.singleton_sublist.mpr ho
    have hcon := construct_eq cls kwargs [(o, RecValue.null)]
      ⟨hndr, hndo, hdisj, hprivr, hprivo⟩ hk hsub (by simp)
    refine ⟨hcon, ?_⟩
    have htd := record_parts_to_dict cls kwargs [(o, RecValue.null)]
      ⟨hndr, hndo, hdisj, hprivr, hprivo⟩ hk hsub
    rw [hcon, htd]
    have hno : o ∉ kwargs.map Prod.fst := by
      rw [hk]
      exact fun hcon2 => hdisj o hcon2 ho
    rw [lookupKV_append_right hno, lookupKV, if_pos rfl]

/-- Witness for C9 on `LabeledVideoRecord`: built with only the required
fields, `group` is absent from the attributes; built with `group = None`,
the `None` is kept and serialized. -/
theorem c9_unset_optional_witness :
    LabeledVideoRecordCls.construct
        [("video_path", RecValue.str "a"), ("label", RecValue.str "c")] =
      ⟨[("video_path", RecValue.str "a"), ("label", RecValue.str "c")]⟩ ∧
    lookupKV "group" (LabeledVideoRecordCls.construct
        [("video_path", RecValue.str "a"), ("label", RecValue.str "c")]).attrs =
      none ∧
    lookupKV "group" (Record.to_dict (LabeledVideoRecordCls.construct
        ([("video_path", RecValue.str "a"), ("label", RecValue.str "c")] ++
          [("group", RecValue.null)]))) = some RecValue.null := by
  have h := c9_unset_optional LabeledVideoRecordCls (by decide)
  exact ⟨(h.1 _ (by decide)).1, ((h.1 _ (by decide)).2 "group" (by decide)).1,
    (h.2 _ "group" (by decide) (by decide)).2⟩

/-! ## DataRecords container serialization round trip -/

/-- State of a `DataRecords` container: its per-instance record class
(`_ELE_CLS`, set in `__init__`, lines 265-273) and its record list. -/
structure DataRecordsModel where
  record_cls : RecordCls
  records : List Record
deriving DecidableEq, Repr

/-- A serialized `DataRecords` dictionary: the container class tag, the
reflective `_RECORD_CLS` element-class tag (class-name resolution is
embedded as carrying the class descriptor itself), and the list of record
dictionaries under the `records` attribute. -/
structure RecordsDict where
  container_cls : String
  record_cls_tag : Option RecordCls
  records : List (List (String × RecValue))
deriving DecidableEq, Repr

/-- Modelled from the spec: `Container.to_dict` / `serialize`
(eta.core.serial, not under src/) emits the container class tag, the
`_ELE_CLS_FIELD` tag naming the record class, and each record serialized
through its own `attributes()`. -/
def DataRecordsModel.to_dict (c : DataRecordsModel) : RecordsDict :=
  ⟨"eta.core.data.DataRecords", some c.record_cls,
    c.records.map Record.to_dict⟩

/-- Errors of `DataRecords.from_dict`: the `DataRecordsError` raised when
no record class is available (line 394-396), or a record-level error. -/
inductive RecordsError where
  | needRecordCls
  | recordError (e : RecordError)
deriving DecidableEq, Repr

/-- The list comprehension `[rc.from_dict(r) for r in d[records]]`
(line 400), propagating the first record-level exception. -/
def mapFromDict (rc : RecordCls) :
    List (List (String × RecValue)) → Except RecordsError (List Record)
  | [] => .ok []
  | d :: ds =>
    match rc.from_dict d with
    | .error e => .error (.recordError e)
    | .ok r =>
      match mapFromDict rc ds with
      | .ok rest => .ok (r :: rest)
      | .error e => .error e

/-- `DataRecords.from_dict` (lines 380-400): the explicit override if
given, else the reflective `_RECORD_CLS` tag (`record_cls or d.get(...)`);
raise when neither is available; parse each record with the resolved
class and return a `DataRecords` of that class. -/
def DataRecordsModel.from_dict (d : RecordsDict)
    (record_cls : Option RecordCls) : Except RecordsError DataRecordsModel :=
  match record_cls.or d.record_cls_tag with
  | none => .error .needRecordCls
  | some rc =>
    match mapFromDict rc d.records with
    | .ok rs => .ok ⟨rc, rs⟩
    | .error e => .error e

theorem records_from_dict_eq (d : RecordsDict) (rc : RecordCls)
    (htag : d.record_cls_tag = some rc) :
    DataRecordsModel.from_dict d none =
      (match mapFromDict rc d.records with
       | .ok rs => .ok ⟨rc, rs⟩
       | .error e => .error e) := by
  unfold DataRecordsModel.from_dict
  rw [Option.none_or, htag]

/-- C1: for every `DataRecords` container over a well-formed record class
whose records are instances of that class, loading the serialized map
through the reflective tag alone (`from_dict` with no override) yields a
container with the same record class and equal records in the same order
— i.e. exactly the original container (and `DataRecords.from_dict` always
builds a `DataRecords`, the concrete type of the original container). -/
theorem c1_round_trip (c : DataRecordsModel) (hwf : c.record_cls.wf)
    (hinst : ∀ r ∈ c.records, c.record_cls.isInstance r = true) :
    DataRecordsModel.from_dict c.to_dict none = .ok c := by
  have hmap : ∀ (rs : List Record),
      (∀ r ∈ rs, c.record_cls.isInstance r = true) →
      mapFromDict c.record_cls (rs.map Record.to_dict) = .ok rs := by
    intro rs
    induction rs with
    | nil => intro h; rfl
    | cons r rest ih =>
      intro h
      rw [List.map_cons, mapFromDict,
        from_dict_to_dict c.record_cls r hwf (h r (List.mem_cons_self r rest)),
        ih (fun r2 hr2 => h r2 (List.mem_cons_of_mem r hr2))]
  rw [records_from_dict_eq c.to_dict c.record_cls rfl]
  simp only [DataRecordsModel.to_dict]
  rw [hmap c.records hinst]

/-- Witness for C1: a `DataRecords` of two `LabeledVideoRecord`s (one
with the optional `group` set) round-trips through `to_dict`/`from_dict`
with no explicit record class. -/
theorem c1_round_trip_witness :
    DataRecordsModel.from_dict
      (DataRecordsModel.to_dict ⟨LabeledVideoRecordCls,
        [⟨[("video_path", RecValue.str "a.mp4"),
           ("label", RecValue.str "cat")]⟩,
         ⟨[("video_path", RecValue.str "b.mp4"),
           ("label", RecValue.str "dog"),
           ("group", RecValue.str "g1")]⟩]⟩) none =
      .ok ⟨LabeledVideoRecordCls,
        [⟨[("video_path", RecValue.str "a.mp4"),
           ("label", RecValue.str "cat")]⟩,
         ⟨[("video_path", RecValue.str "b.mp4"),
           ("label", RecValue.str "dog"),
           ("group", RecValue.str "g1")]⟩]⟩ :=
  c1_round_trip _ (by decide) (by decide)

end EtaData
